import Mathlib

/-!
Verification of the retrieval-augmented agent server (TypeScript sources under
`src/`).  The TypeScript services are shallowly embedded as Lean functions:

* `MemoryService` (src/services/memoryService.ts): bounded per-session
  conversation log, assoc-list model of the `Map<string, SessionMemory>`.
* `AgentService.processMessage` (agentService.ts): the per-turn pipeline,
  with the external effects (vector search, plugin execution, chat
  completion) passed in as oracle values describing the outcome of the
  corresponding `await`.
* `VectorStore` (src/services/vectorStore.ts): cosine similarity over `ℝ`
  (the JS number arithmetic is modelled by real arithmetic), lexical
  fallback scoring, and `searchSimilar` instrumented with a counter of
  embedding-capability invocations.
* `DocumentLoader.chunkText` (documentLoader.ts): the overlapping chunker
  on `List Char`.
* `PersistentVectorStore.getFilesToProcess` / `hasFileChanged`
  (persistentVectorStore.ts): change classification over an abstract view
  of the file system (name, current content hash, mtime per file).
* `MathPlugin` / `WeatherPlugin` / `PluginManager` (plugins/): trigger
  predicates and the ordered regex extraction pipeline, with the regexes
  hand-compiled to scanning functions on `List Char`.
-/

namespace RAG

/-! ## Session memory (src/services/memoryService.ts)

The `Map<string, SessionMemory>` is modelled as an association list that
preserves JS `Map` insertion/update order.  Timestamps (`new Date()` in the
code) are threaded in as an explicit `now : String` argument. -/

inductive Role where
  | user
  | assistant
deriving DecidableEq, Repr

structure ConversationMessage where
  role : Role
  content : String
  timestamp : String
deriving DecidableEq, Repr

structure SessionMemory where
  session_id : String
  messages : List ConversationMessage
  created_at : String
  updated_at : String
deriving DecidableEq, Repr

abbrev MemState := List (String × SessionMemory)

def MAX_MESSAGES_PER_SESSION : Nat := 20

/-- Update the entry for `sid` in place (JS `Map.set` keeps the key's
position when it is already present, otherwise appends). -/
def setSession : MemState → String → SessionMemory → MemState
  | [], sid, s => [(sid, s)]
  | (k, v) :: rest, sid, s =>
      if k = sid then (k, s) :: rest else (k, v) :: setSession rest sid s

/-- Embedding of `MemoryService.addMessage`: create the session lazily,
push the message, then keep only the last `MAX_MESSAGES_PER_SESSION`
messages (`messages.slice(-MAX_MESSAGES_PER_SESSION)`). -/
def addMessage (st : MemState) (sessionId : String) (role : Role)
    (content now : String) : MemState :=
  let message : ConversationMessage := ⟨role, content, now⟩
  let session : SessionMemory :=
    match st.lookup sessionId with
    | some s => s
    | none => ⟨sessionId, [], now, now⟩
  let pushed := session.messages ++ [message]
  let truncated :=
    if pushed.length > MAX_MESSAGES_PER_SESSION then
      pushed.drop (pushed.length - MAX_MESSAGES_PER_SESSION)
    else pushed
  setSession st sessionId { session with messages := truncated, updated_at := now }

/-- Embedding of `MemoryService.getSessionHistory`. -/
def getSessionHistory (st : MemState) (sessionId : String) : List ConversationMessage :=
  match st.lookup sessionId with
  | some s => s.messages
  | none => []

/-- JS `array.slice(-n)`: the last `n` elements (all of them if `n` exceeds
the length). -/
def lastN (n : Nat) (l : List α) : List α := l.drop (l.length - n)

/-- Embedding of `MemoryService.getRecentMessages` (default limit 4). -/
def getRecentMessages (st : MemState) (sessionId : String) (limit : Nat := 4) :
    List ConversationMessage :=
  lastN limit (getSessionHistory st sessionId)

/-- Embedding of `MemoryService.clearSession` (JS `Map.delete`). -/
def clearSession (st : MemState) (sessionId : String) : MemState :=
  st.filter (fun p => p.1 != sessionId)

/-! ## Orchestrator (src/services/agentService.ts, `processMessage`)

The external effects are passed in as oracle values describing what each
`await` would have produced in this turn:

* `searchOutcome : Option (List γ)` — the result of
  `vectorStore.searchSimilar(message, 3)`; `none` means the call threw
  (the inner `try/catch` then proceeds with an empty result set);
* `pluginResults : List PluginResult` — the value returned by
  `pluginManager.executePlugins` (which catches internally and never
  throws);
* `chatOutcome : Option String` — the reply from
  `geminiService.generateChatCompletion`, `none` meaning the call threw.
  This is the only statement of the `try` block that can throw in the
  model, matching the code (every other awaited call catches internally).

`historyPassed` records the `conversationHistory.slice(0, -1)` argument
actually handed to the chat-generation call. -/

def apologyReply : String :=
  "I apologize, but I encountered an error while processing your message. Please try again."

structure MathResult where
  expression : String
  result : ℚ
  success : Bool
deriving DecidableEq, Repr

structure WeatherData where
  location : String
  temperature : ℚ
  description : String
  humidity : ℚ
  wind_speed : ℚ
deriving DecidableEq, Repr

inductive PluginPayload where
  | math (m : MathResult)
  | weather (w : WeatherData)
deriving DecidableEq, Repr

structure PluginResult where
  plugin_name : String
  result : PluginPayload
  success : Bool
  error : Option String
deriving DecidableEq, Repr

structure AgentResponse where
  reply : String
  session_id : String
  timestamp : String
  plugins_used : List String
  context_retrieved : Bool
deriving DecidableEq, Repr

structure TurnOutcome where
  response : AgentResponse
  memAfter : MemState
  historyPassed : List ConversationMessage
deriving DecidableEq, Repr

/-- Embedding of `AgentService.processMessage`.  `γ` is the element type of
the retrieved-context array (`any[]` in the code); only its length is
observed by the pipeline. -/
def processMessage {γ : Type} (st : MemState) (message sessionId now : String)
    (searchOutcome : Option (List γ)) (pluginResults : List PluginResult)
    (chatOutcome : Option String) : TurnOutcome :=
  -- step 1: add the user message to memory
  let st1 := addMessage st sessionId Role.user message now
  -- step 2: retrieve context; on failure continue with an empty result set
  let contextResults : List γ :=
    match searchOutcome with
    | some rs => rs
    | none => []
  -- step 3: conversation history, excluding the current message
  let conversationHistory := getRecentMessages st1 sessionId 4
  let historyArg := conversationHistory.dropLast
  -- steps 5-7: generate, then append the AI reply; a throw from the chat
  -- call lands in the outer catch, which returns the apology response
  -- without touching memory again
  match chatOutcome with
  | some aiResponse =>
      let st2 := addMessage st1 sessionId Role.assistant aiResponse now
      { response :=
          { reply := aiResponse
            session_id := sessionId
            timestamp := now
            plugins_used := pluginResults.map (·.plugin_name)
            context_retrieved := contextResults.length > 0 }
        memAfter := st2
        historyPassed := historyArg }
  | none =>
      { response :=
          { reply := apologyReply
            session_id := sessionId
            timestamp := now
            plugins_used := []
            context_retrieved := false }
        memAfter := st1
        historyPassed := historyArg }

/-- Concrete four-message session used to refute C1. -/
def c1Session : MemState :=
  [("s", ⟨"s",
    [⟨Role.user, "m1", "t1"⟩, ⟨Role.assistant, "m2", "t2"⟩,
     ⟨Role.user, "m3", "t3"⟩, ⟨Role.assistant, "m4", "t4"⟩], "t0", "t0"⟩)]

/-! ## Document chunker (src/services/documentLoader.ts, `chunkText`)

Text is modelled as `List Char`.  `String.prototype.lastIndexOf(pat, from)`
is embedded as a single left-to-right scan remembering the last position
`≤ from` where `pat` occurs (`-1` when there is none, as in JS, hence the
`Int` result).  Note the source searches for the four-character literal
`\n\n` (the string literal in the code is escaped twice), which the
embedding reproduces verbatim. -/

def CHUNK_SIZE : Nat := 1000

def CHUNK_OVERLAP : Nat := 200

def lastIndexAux (pat : List Char) (bound : Nat) : List Char → Nat → Int → Int
  | s, i, best =>
    if i > bound then best
    else
      let best' := if pat.isPrefixOf s then (i : Int) else best
      match s with
      | [] => best'
      | _ :: rest => lastIndexAux pat bound rest (i + 1) best'

/-- JS `text.lastIndexOf(pat, fromIdx)`: the largest index `≤ fromIdx` at
which `pat` occurs in `text`, or `-1`. -/
def lastIndexOfFrom (text pat : List Char) (fromIdx : Nat) : Int :=
  lastIndexAux pat fromIdx text 0 (-1)

/-- JS `String.prototype.trim`. -/
def trimChars (l : List Char) : List Char :=
  ((l.dropWhile Char.isWhitespace).reverse.dropWhile Char.isWhitespace).reverse

/-- The `end` cursor computed by one iteration of `chunkText`'s loop: the
window end `start + CHUNK_SIZE`, moved back to just after the last sentence
terminator or (escaped) blank-line break if that break lies past the
window's midpoint. -/
def chunkEnd (text : List Char) (start : Nat) : Nat :=
  let e := start + CHUNK_SIZE
  if e < text.length then
    let lastSentence := lastIndexOfFrom text ['.'] e
    let lastNewline := lastIndexOfFrom text ['\\', 'n', '\\', 'n'] e
    let lastParagraph := max lastSentence lastNewline
    if lastParagraph > (start : Int) + (CHUNK_SIZE / 2 : Nat) then
      (lastParagraph + 1).toNat
    else e
  else e

/-- The loop's next scan position:
`start = Math.max(start + CHUNK_SIZE - CHUNK_OVERLAP, end)`. -/
def nextStart (text : List Char) (start : Nat) : Nat :=
  max (start + CHUNK_SIZE - CHUNK_OVERLAP) (chunkEnd text start)

/-- One fuel unit per iteration of the `while (start < text.length)` loop.
`chunkTextAux_fuel_irrel` below shows the result is the same for every
fuel at least `text.length - start`, and `chunker_progress` shows each
iteration advances `start` by at least 800, so the budget
`text.length` used by `chunkText` never runs out: the fueled function
computes exactly what the source loop computes. -/
def chunkTextAux (text : List Char) : Nat → Nat → List (List Char)
  | 0, _ => []
  | fuel + 1, start =>
    if start < text.length then
      let e := chunkEnd text start
      let chunk := trimChars ((text.drop start).take (e - start))
      let rest := chunkTextAux text fuel (nextStart text start)
      if chunk.length > 0 then chunk :: rest else rest
    else []

/-- Embedding of `DocumentLoader.chunkText`. -/
def chunkText (text : List Char) : List (List Char) :=
  chunkTextAux text text.length 0

/-! ## Vector store (src/services/vectorStore.ts)

JS `number` arithmetic is modelled by `ℝ` (`Math.sqrt` becomes
`Real.sqrt`).  A throwing call is modelled as `none`.  `searchSimilar`
takes the embedding capability as an oracle
`embed : List Char → Option (List ℝ)` (`none` = the call threw) and
additionally returns how many times that capability was invoked.  The
`index` field of a `SearchResult` records the document's position in the
store (its insertion order), which is what the stable JS `sort` ties
break on; the `Document.metadata` fields other than the content are not
observed by any search path and are omitted. -/

structure Document where
  id : String
  content : List Char
  embedding : Option (List ℝ)

/-- Embedding of `VectorStore.cosineSimilarity`; `none` models the thrown
`'Vectors must have the same length'` error. -/
noncomputable def cosineSimilarity (a b : List ℝ) : Option ℝ :=
  if a.length ≠ b.length then none
  else
    let dotProduct := (List.zipWith (· * ·) a b).sum
    let normA := (List.zipWith (· * ·) a a).sum
    let normB := (List.zipWith (· * ·) b b).sum
    let denominator := Real.sqrt normA * Real.sqrt normB
    if denominator = 0 then some 0 else some (dotProduct / denominator)

/-- Splitter for the source's `split(/\\s+/)` (note the doubled backslash
in the source file: the separator is a literal backslash followed by one
or more `s` characters, not whitespace). -/
def splitBsS : List Char → List Char → List (List Char)
  | cur, '\\' :: 's' :: rest =>
      cur.reverse :: splitBsS [] (rest.dropWhile (· = 's'))
  | cur, c :: rest => splitBsS (c :: cur) rest
  | cur, [] => [cur.reverse]
termination_by _ l => l.length
decreasing_by
  · have := (List.dropWhile_sublist (fun c => decide (c = 's')) (l := rest)).length_le
    simp only [List.length_cons]
    omega
  · simp only [List.length_cons]
    omega

def lowerChars (l : List Char) : List Char := l.map Char.toLower

/-- JS `hay.includes(needle)`: `needle` occurs contiguously in `hay`. -/
def substringOf (needle : List Char) : List Char → Bool
  | [] => needle.isEmpty
  | c :: rest => needle.isPrefixOf (c :: rest) || substringOf needle rest

/-- Embedding of `VectorStore.simpleTextSimilarity`: the fraction of query
words that share a substring relation with some text word
(`textWord.includes(word) || word.includes(textWord)`). -/
noncomputable def simpleTextSimilarity (query text : List Char) : ℝ :=
  let queryWords := splitBsS [] query
  let textWords := splitBsS [] text
  let matchCount :=
    (queryWords.filter (fun word =>
      textWords.any (fun textWord =>
        substringOf word textWord || substringOf textWord word))).length
  (matchCount : ℝ) / (queryWords.length : ℝ)

structure SearchResult where
  index : Nat
  document : Document
  similarity : ℝ

/-- Score of one document in `searchSimilar`'s loop: cosine similarity when
the document has an embedding (`none` propagates the length-mismatch
throw), lexical overlap otherwise. -/
noncomputable def scoreDoc (queryEmbedding : List ℝ) (query : List Char)
    (d : Document) : Option ℝ :=
  match d.embedding with
  | some e => cosineSimilarity queryEmbedding e
  | none => some (simpleTextSimilarity (lowerChars query) (lowerChars d.content))

noncomputable def scoreAll (qe : List ℝ) (query : List Char) :
    List (Nat × Document) → Option (List SearchResult)
  | [] => some []
  | (i, d) :: rest =>
    match scoreDoc qe query d with
    | none => none
    | some s =>
      match scoreAll qe query rest with
      | none => none
      | some rs => some (⟨i, d, s⟩ :: rs)

/-- Stable insertion used to model the (stable, per ES2019) JS
`sort((a, b) => b.similarity - a.similarity)`: an element is placed after
every already-placed element whose similarity is at least as large. -/
noncomputable def insertResult : List SearchResult → SearchResult → List SearchResult
  | [], x => [x]
  | y :: ys, x =>
      if y.similarity < x.similarity then x :: y :: ys else y :: insertResult ys x

noncomputable def sortByScoreDesc (l : List SearchResult) : List SearchResult :=
  l.foldl insertResult []

/-- Embedding of `VectorStore.fallbackTextSearch`. -/
noncomputable def fallbackTextSearch (docs : List Document) (query : List Char)
    (topK : Nat) : List SearchResult :=
  (sortByScoreDesc (docs.enum.map (fun p =>
    ⟨p.1, p.2, simpleTextSimilarity (lowerChars query) (lowerChars p.2.content)⟩))).take topK

/-- Embedding of `VectorStore.searchSimilar`.  The second component counts
the invocations of the embedding capability (the query-embedding call); a
`none` from `embed` or from a similarity computation lands in the `catch`,
which degrades to `fallbackTextSearch`. -/
noncomputable def searchSimilar (embed : List Char → Option (List ℝ))
    (docs : List Document) (query : List Char) (topK : Nat) :
    List SearchResult × Nat :=
  match docs with
  | [] => ([], 0)
  | _ :: _ =>
    match embed query with
    | none => (fallbackTextSearch docs query topK, 1)
    | some qe =>
      match scoreAll qe query docs.enum with
      | none => (fallbackTextSearch docs query topK, 1)
      | some results => ((sortByScoreDesc results).take topK, 1)

/-- Ranking order of the returned list: strictly larger similarity first,
ties broken by the position in the store (insertion order). -/
def rankedBefore (a b : SearchResult) : Prop :=
  b.similarity < a.similarity ∨
    (a.similarity = b.similarity ∧ a.index < b.index)

/-! ## Plugins (src/plugins/mathPlugin.ts, weatherPlugin.ts,
pluginManager.ts)

The regexes of `MathPlugin` are hand-compiled into leftmost-match scanners
on `List Char`; each definition names the regex it implements.  The
weather plugin's effectful `execute` (HTTP + `Math.random` mock) enters
the model as an oracle `PluginResult` value; only its trigger predicate is
embedded. -/

/-- Character class `[0-9+\-*/^().\s*]` of extraction patterns 1-3 (the
duplicated `*` makes the classes of patterns 1 and 2/3 the same set). -/
def exprClassChar (c : Char) : Bool :=
  c.isDigit || c == '+' || c == '-' || c == '*' || c == '/' || c == '^' ||
    c == '(' || c == ')' || c == '.' || c.isWhitespace

/-- Leftmost maximal run of characters satisfying `p`: the match of
`/([0-9+\-*/^().\s*]+(?:[+\-*/^*][0-9+\-*/^().\s*]*)*)/` (the trailing
group consumes nothing beyond the greedy leading `+`, whose class contains
the whole inner alphabet). -/
def firstRun (p : Char → Bool) : List Char → Option (List Char)
  | [] => none
  | c :: rest => if p c then some (c :: rest.takeWhile p) else firstRun p rest

/-- Case-insensitive literal-keyword match at the current position
(`kw` is given in lowercase). -/
def stripKeyword (kw : List Char) (l : List Char) : Option (List Char) :=
  if (l.take kw.length).map Char.toLower = kw then some (l.drop kw.length) else none

/-- The tail `\s+([0-9+\-*/^().\s]+)` of patterns 2 and 3.  The greedy
`\s+` takes every whitespace character that leaves the group a character
of the class right after it; since the class itself contains `\s`, when no
class character follows the run the regex backtracks and the group
captures the final whitespace character (requiring at least two). -/
def groupAfterWs (l : List Char) : Option (List Char) :=
  let ws := l.takeWhile (·.isWhitespace)
  let rest := l.drop ws.length
  if ws.isEmpty then none
  else
    match rest with
    | c :: cs =>
      if exprClassChar c then some (c :: cs.takeWhile exprClassChar)
      else if ws.length ≥ 2 then ws.getLast?.map (fun w => [w]) else none
    | [] => if ws.length ≥ 2 then ws.getLast?.map (fun w => [w]) else none

/-- One-position matcher for `/what\s+is\s+([0-9+\-*/^().\s]+)/i`. -/
def tryWhatIsAt (l : List Char) : Option (List Char) :=
  (stripKeyword ['w', 'h', 'a', 't'] l).bind fun r1 =>
    let ws := r1.takeWhile (·.isWhitespace)
    if ws.isEmpty then none
    else (stripKeyword ['i', 's'] (r1.drop ws.length)).bind groupAfterWs

/-- One-position matcher for `/calculate\s+([0-9+\-*/^().\s]+)/i`. -/
def tryCalculateAt (l : List Char) : Option (List Char) :=
  (stripKeyword "calculate".toList l).bind groupAfterWs

/-- The leftmost-match loop of `String.prototype.match`: try the
one-position matcher at every position, earliest success wins. -/
def scanOption (f : List Char → Option (List Char)) : List Char → Option (List Char)
  | [] => f []
  | c :: rest =>
    match f (c :: rest) with
    | some r => some r
    | none => scanOption f rest

/-- Greedy `\d+(?:\.\d+)?`: the captured number and the remainder. -/
def takeNumber : List Char → Option (List Char × List Char)
  | [] => none
  | c :: rest =>
    if c.isDigit then
      let ds := c :: rest.takeWhile Char.isDigit
      let r1 := rest.dropWhile Char.isDigit
      match r1 with
      | '.' :: r2 =>
        match r2 with
        | d :: r3 =>
          if d.isDigit then
            some (ds ++ '.' :: d :: r3.takeWhile Char.isDigit, r3.dropWhile Char.isDigit)
          else some (ds, r1)
        | [] => some (ds, r1)
      | _ => some (ds, r1)
    else none

/-- One-position matcher for the natural-language binary patterns
`/(\d+(?:\.\d+)?)\s+kw\s+(\d+(?:\.\d+)?)/i` (patterns 4-6), producing the
template string `` `${m1} op ${m2}` ``. -/
def tryNatBinAt (kw : List Char) (op : Char) (l : List Char) : Option (List Char) :=
  (takeNumber l).bind fun p1 =>
    let ws1 := p1.2.takeWhile (·.isWhitespace)
    if ws1.isEmpty then none
    else (stripKeyword kw (p1.2.drop ws1.length)).bind fun r2 =>
      let ws2 := r2.takeWhile (·.isWhitespace)
      if ws2.isEmpty then none
      else (takeNumber (r2.drop ws2.length)).map fun p2 =>
        p1.1 ++ ' ' :: op :: ' ' :: p2.1

/-- Embedding of `MathPlugin.extractExpression`: the six patterns tried in
priority order, first success wins (patterns 2 and 3 return the trimmed
group unconditionally; pattern 1 additionally requires trimmed length
> 1). -/
def extractExpression (msg : List Char) : Option (List Char) :=
  let p1 :=
    match firstRun exprClassChar msg with
    | some g => if (trimChars g).length > 1 then some (trimChars g) else none
    | none => none
  match p1 with
  | some r => some r
  | none =>
    match scanOption tryWhatIsAt msg with
    | some g => some (trimChars g)
    | none =>
      match scanOption tryCalculateAt msg with
      | some g => some (trimChars g)
      | none =>
        match scanOption (tryNatBinAt ['p', 'l', 'u', 's'] '+') msg with
        | some g => some g
        | none =>
          match scanOption (tryNatBinAt ['t', 'i', 'm', 'e', 's'] '*') msg with
          | some g => some g
          | none =>
            match scanOption (tryNatBinAt ['m', 'i', 'n', 'u', 's'] '-') msg with
            | some g => some g
            | none => none

/-- Character class `[\d+\-*/^().]` kept by `cleanExpression`. -/
def mathKeepChar (c : Char) : Bool :=
  c.isDigit || c == '+' || c == '-' || c == '*' || c == '/' || c == '^' ||
    c == '(' || c == ')' || c == '.'

/-- Global non-overlapping `replace(/\*\*/g, '^')`. -/
def replaceStarStar : List Char → List Char
  | '*' :: '*' :: rest => '^' :: replaceStarStar rest
  | c :: rest => c :: replaceStarStar rest
  | [] => []

/-- Embedding of `MathPlugin.cleanExpression`: drop whitespace, `**` → `^`,
keep only `[\d+\-*/^().]`, then the `x`/`÷` substitutions (both no-ops
after the preceding filter, kept for fidelity to the source order). -/
def cleanExpression (e : List Char) : List Char :=
  let s1 := e.filter (fun c => !c.isWhitespace)
  let s2 := replaceStarStar s1
  let s3 := s2.filter mathKeepChar
  let s4 := s3.map (fun c => if c == 'x' || c == 'X' then '*' else c)
  s4.map (fun c => if c == '÷' then '/' else c)

/-- Unnormalised fraction (numerator, denominator): the evaluator's number
representation.  Kept unreduced so that every arithmetic step is a plain
`Int` computation (`ℚ`'s normalising arithmetic does not reduce inside the
kernel); `fracToRat` interprets it as the rational it denotes. -/
abbrev Frac := Int × Int

def fracAdd (x y : Frac) : Frac := (x.1 * y.2 + y.1 * x.2, x.2 * y.2)

def fracSub (x y : Frac) : Frac := (x.1 * y.2 - y.1 * x.2, x.2 * y.2)

def fracMul (x y : Frac) : Frac := (x.1 * y.1, x.2 * y.2)

def fracDiv (x y : Frac) : Frac := (x.1 * y.2, x.2 * y.1)

def fracNeg (x : Frac) : Frac := (-x.1, x.2)

def fracPow (x : Frac) (n : Int) : Frac :=
  if 0 ≤ n then (x.1 ^ n.toNat, x.2 ^ n.toNat)
  else (x.2 ^ (-n).toNat, x.1 ^ (-n).toNat)

def fracIsInt (x : Frac) : Bool := x.2 != 0 && x.1 % x.2 == 0

def fracToInt (x : Frac) : Int := x.1 / x.2

def fracToRat (x : Frac) : ℚ := (x.1 : ℚ) / (x.2 : ℚ)

inductive MathTok where
  | num (f : Frac)
  | plus
  | minus
  | star
  | slash
  | caret
  | lparen
  | rparen
deriving DecidableEq, Repr

def natOfDigits (ds : List Char) : Nat :=
  ds.foldl (fun n d => n * 10 + (d.toNat - 48)) 0

def fracOfDigits (ds fs : List Char) : Frac :=
  ((natOfDigits ds : Int) * 10 ^ fs.length + (natOfDigits fs : Int),
    (10 : Int) ^ fs.length)

/-- Tokenizer for the sanitized arithmetic alphabet.  One fuel unit per
consumed character, so `tokenize` below always has enough. -/
def tokenizeAux : Nat → List Char → Option (List MathTok)
  | 0, _ => none
  | _ + 1, [] => some []
  | fuel + 1, c :: rest =>
    if c.isDigit then
      let ds := c :: rest.takeWhile Char.isDigit
      let r1 := rest.dropWhile Char.isDigit
      match r1 with
      | '.' :: r2 =>
        match r2 with
        | d :: r3 =>
          if d.isDigit then
            (tokenizeAux fuel (r3.dropWhile Char.isDigit)).map
              (MathTok.num (fracOfDigits ds (d :: r3.takeWhile Char.isDigit)) :: ·)
          else none
        | [] => none
      | _ => (tokenizeAux fuel r1).map (MathTok.num (fracOfDigits ds []) :: ·)
    else
      let tok : Option MathTok :=
        if c == '+' then some .plus
        else if c == '-' then some .minus
        else if c == '*' then some .star
        else if c == '/' then some .slash
        else if c == '^' then some .caret
        else if c == '(' then some .lparen
        else if c == ')' then some .rparen
        else none
      match tok with
      | some t => (tokenizeAux fuel rest).map (t :: ·)
      | none => none

def tokenize (l : List Char) : Option (List MathTok) :=
  tokenizeAux (l.length + 1) l

/-- Parser state for the arithmetic grammar: `atom`/`factor`/`mul`/`add`
are the grammar levels, the `Loop` modes carry the left-associative
accumulator. -/
inductive ParseMode where
  | atom
  | factor
  | mul
  | add
  | mulLoop (acc : Frac)
  | addLoop (acc : Frac)

/-- Modelled from the spec: the external `mathjs` `evaluate` consumed by
`MathPlugin.execute` (the library is not part of this repository).  A
fueled recursive-descent parser over `ℚ` for the sanitized alphabet:
`+ -` then `* /` by precedence, left-associative; `^` binds tightest,
right-associative, integer exponents; parenthesised and unary-negated
atoms.  Evaluation failure (unparsable input, fractional exponent) is
`none`. -/
def parseGo : Nat → ParseMode → List MathTok → Option (Frac × List MathTok)
  | 0, _, _ => none
  | fuel + 1, .atom, ts =>
    match ts with
    | .num q :: rest => some (q, rest)
    | .lparen :: rest =>
      match parseGo fuel .add rest with
      | some (v, .rparen :: rest') => some (v, rest')
      | _ => none
    | .minus :: rest => (parseGo fuel .atom rest).map (fun p => (fracNeg p.1, p.2))
    | _ => none
  | fuel + 1, .factor, ts =>
    match parseGo fuel .atom ts with
    | none => none
    | some (b, rest) =>
      match rest with
      | .caret :: rest' =>
        match parseGo fuel .factor rest' with
        | some (e, rest'') =>
          if fracIsInt e then some (fracPow b (fracToInt e), rest'') else none
        | none => none
      | _ => some (b, rest)
  | fuel + 1, .mul, ts =>
    match parseGo fuel .factor ts with
    | none => none
    | some (v, rest) => parseGo fuel (.mulLoop v) rest
  | fuel + 1, .mulLoop acc, ts =>
    match ts with
    | .star :: rest =>
      match parseGo fuel .factor rest with
      | some (v, rest') => parseGo fuel (.mulLoop (fracMul acc v)) rest'
      | none => none
    | .slash :: rest =>
      match parseGo fuel .factor rest with
      | some (v, rest') => parseGo fuel (.mulLoop (fracDiv acc v)) rest'
      | none => none
    | _ => some (acc, ts)
  | fuel + 1, .add, ts =>
    match parseGo fuel .mul ts with
    | none => none
    | some (v, rest) => parseGo fuel (.addLoop v) rest
  | fuel + 1, .addLoop acc, ts =>
    match ts with
    | .plus :: rest =>
      match parseGo fuel .mul rest with
      | some (v, rest') => parseGo fuel (.addLoop (fracAdd acc v)) rest'
      | none => none
    | .minus :: rest =>
      match parseGo fuel .mul rest with
      | some (v, rest') => parseGo fuel (.addLoop (fracSub acc v)) rest'
      | none => none
    | _ => some (acc, ts)

def evaluate (e : List Char) : Option Frac :=
  match tokenize e with
  | none => none
  | some ts =>
    match parseGo (8 * ts.length + 16) .add ts with
    | some (v, []) => some v
    | _ => none

/-- Fueled splitter for `split(/\s+/)` (genuine whitespace here, unlike the
doubled-backslash split in vectorStore.ts); one fuel unit per consumed
character, so the budget in `splitWs` always suffices.  As in JS, a
leading or trailing separator contributes an empty word. -/
def splitWsAux : Nat → List Char → List Char → List (List Char)
  | 0, cur, _ => [cur.reverse]
  | _ + 1, cur, [] => [cur.reverse]
  | fuel + 1, cur, c :: rest =>
    if c.isWhitespace then
      cur.reverse :: splitWsAux fuel [] (rest.dropWhile (·.isWhitespace))
    else splitWsAux fuel (c :: cur) rest

def splitWs (l : List Char) : List (List Char) :=
  splitWsAux (l.length + 1) [] l

/-- Operator class `[+\-*/^%=()]` of `MathPlugin.shouldExecute`. -/
def mathOperatorChar (c : Char) : Bool :=
  c == '+' || c == '-' || c == '*' || c == '/' || c == '^' || c == '%' ||
    c == '=' || c == '(' || c == ')'

def mathKeywords : List (List Char) :=
  ["calculate", "compute", "solve", "math", "equation", "add", "subtract",
    "multiply", "divide", "plus", "minus", "times", "equals", "sum",
    "total"].map String.toList

/-- Embedding of `MathPlugin.shouldExecute`. -/
def mathShouldExecute (msg : List Char) : Bool :=
  let hasOperators := msg.any mathOperatorChar
  let messageWords := splitWs (lowerChars msg)
  let hasKeywords :=
    mathKeywords.any (fun kw => messageWords.any (fun w => substringOf kw w))
  let hasNumbers := msg.any Char.isDigit
  (hasOperators && hasNumbers) || (hasKeywords && hasNumbers)

def weatherKeywords : List (List Char) :=
  ["weather", "temperature", "forecast", "climate", "rain", "sunny",
    "cloudy", "storm", "humidity", "wind", "hot", "cold",
    "degrees"].map String.toList

/-- Embedding of `WeatherPlugin.shouldExecute`. -/
def weatherShouldExecute (msg : List Char) : Bool :=
  let messageWords := splitWs (lowerChars msg)
  weatherKeywords.any (fun kw => messageWords.any (fun w => substringOf kw w))

/-- Embedding of `MathPlugin.execute` (the dynamic text of the
evaluation-failure message is modelled by its fixed prefix). -/
def mathPluginExecute (msg : List Char) : PluginResult :=
  match extractExpression msg with
  | none =>
    { plugin_name := "math"
      result := .math ⟨"unknown", 0, false⟩
      success := false
      error := some "No valid mathematical expression found" }
  | some e =>
    let ce := cleanExpression e
    match evaluate ce with
    | some v =>
      { plugin_name := "math"
        result := .math ⟨String.mk ce, fracToRat v, true⟩
        success := true
        error := none }
    | none =>
      { plugin_name := "math"
        result := .math ⟨"error", 0, false⟩
        success := false
        error := some "Mathematical evaluation failed" }

/-- Embedding of `PluginManager.executePlugins`: weather first, then math,
each plugin firing independently; `weatherOutcome` is the oracle value of
the weather plugin's effectful `execute` (HTTP call or `Math.random`
mock), which is only consulted when its trigger fires. -/
def executePlugins (msg : List Char) (weatherOutcome : PluginResult) :
    List PluginResult :=
  (if weatherShouldExecute msg then [weatherOutcome] else []) ++
    (if mathShouldExecute msg then [mathPluginExecute msg] else [])

/-! ## Persistent index change detection
(src/services/persistentVectorStore.ts)

The file system enters the model as the list of current source files, each
carrying its name, current content hash and modification timestamp (the
values `getFileHash`/`statSync` would produce; the `catch` branches for
unreadable files are unreachable in this total view). -/

structure FileMetadata where
  filename : String
  fileHash : String
  lastModified : Int
  chunkCount : Nat
  processedAt : String
deriving DecidableEq, Repr

/-- Current file-system view of one source file. -/
structure SourceFile where
  name : String
  hash : String
  mtime : Int
deriving DecidableEq, Repr

/-- Embedding of `PersistentVectorStore.hasFileChanged`: hash difference
OR mtime difference, either alone. -/
def hasFileChanged (f : SourceFile) (md : FileMetadata) : Bool :=
  f.hash != md.fileHash || f.mtime != md.lastModified

/-- The classification loop of `getFilesToProcess` over the already
filtered markdown files. -/
def classifyFiles (existing : List (String × FileMetadata)) :
    List SourceFile → List SourceFile × List SourceFile × List SourceFile
  | [] => ([], [], [])
  | f :: rest =>
    let prev := classifyFiles existing rest
    match existing.lookup f.name with
    | none => (f :: prev.1, prev.2.1, prev.2.2)
    | some md =>
      if hasFileChanged f md then (prev.1, f :: prev.2.1, prev.2.2)
      else (prev.1, prev.2.1, f :: prev.2.2)

/-- Embedding of `PersistentVectorStore.getFilesToProcess`:
`(newFiles, changedFiles, unchangedFiles)` over the `.md` files of the
directory. -/
def getFilesToProcess (files : List SourceFile)
    (existingMetadata : List (String × FileMetadata)) :
    List SourceFile × List SourceFile × List SourceFile :=
  classifyFiles existingMetadata
    (files.filter (fun f => List.isSuffixOf ".md".toList f.name.toList))

theorem mem_setSession {st : MemState} {sid : String} {s : SessionMemory}
    {e : String × SessionMemory} (he : e ∈ setSession st sid s) :
    e ∈ st ∨ e = (sid, s) := by
  induction st with
  | nil =>
    simp only [setSession, List.mem_singleton] at he
    exact Or.inr he
  | cons p rest ih =>
    obtain ⟨k, v⟩ := p
    by_cases hk : k = sid
    · simp only [setSession, if_pos hk, List.mem_cons] at he
      rcases he with he | he
      · right; rw [he, hk]
      · left; exact List.mem_cons_of_mem _ he
    · simp only [setSession, if_neg hk, List.mem_cons] at he
      rcases he with he | he
      · left; rw [he]; exact List.mem_cons_self _ _
      · rcases ih he with h | h
        · left; exact List.mem_cons_of_mem _ h
        · right; exact h

theorem truncate_le (l : List ConversationMessage) :
    (if l.length > MAX_MESSAGES_PER_SESSION then
      l.drop (l.length - MAX_MESSAGES_PER_SESSION)
    else l).length ≤ 20 := by
  simp only [MAX_MESSAGES_PER_SESSION]
  by_cases h : l.length > 20
  · simp only [if_pos h, List.length_drop]
    omega
  · simp only [if_neg h]
    omega

/-- C3: every session's message list stays within the 20-message cap under
`addMessage` (the only operation that grows a session) and `clearSession`,
and the truncation is FIFO: appending 25 messages to one fresh session
leaves exactly the most recent 20, in their original relative order. -/
theorem memoryService_cap_and_fifo :
    (∀ (st : MemState) (sid : String) (role : Role) (content now : String),
      (∀ e ∈ st, e.2.messages.length ≤ 20) →
      ∀ e ∈ addMessage st sid role content now, e.2.messages.length ≤ 20) ∧
    (∀ (st : MemState) (sid : String),
      (∀ e ∈ st, e.2.messages.length ≤ 20) →
      ∀ e ∈ clearSession st sid, e.2.messages.length ≤ 20) ∧
    (getSessionHistory
        ((List.range 25).foldl
          (fun st i => addMessage st "s" Role.user (toString i) "t") ([] : MemState)) "s"
      = ((List.range 25).drop 5).map
          (fun i => ⟨Role.user, toString i, "t"⟩)) := by
  refine ⟨?_, ?_, by decide⟩
  · intro st sid role content now hinv e he
    simp only [addMessage] at he
    rcases mem_setSession he with h | h
    · exact hinv e h
    · subst h
      exact truncate_le _
  · intro st sid hinv e he
    exact hinv e (List.mem_filter.mp he).1

/-- Witness for `memoryService_cap_and_fifo`: instantiation at a concrete
one-session state. -/
theorem memoryService_cap_and_fifo_witness :
    (∀ e ∈ ([(("s" : String),
        (⟨"s", [⟨Role.user, "a", "t"⟩], "t", "t"⟩ : SessionMemory))] : MemState),
      e.2.messages.length ≤ 20) ∧
    (∀ e ∈ addMessage
        [(("s" : String), (⟨"s", [⟨Role.user, "a", "t"⟩], "t", "t"⟩ : SessionMemory))]
        "s" Role.user "hi" "t",
      e.2.messages.length ≤ 20) := by
  refine ⟨by decide, ?_⟩
  exact memoryService_cap_and_fifo.1 _ "s" Role.user "hi" "t" (by decide)

/-- C1 (counterexample): with a session already holding 4 messages (hence 5
after the user message is appended), the history passed to the chat call is
not the 4 messages preceding the appended one — the code passes only 3
(`getRecentMessages(..., 4)` includes the just-appended message and
`slice(0, -1)` then drops it, leaving 3). -/
theorem history_window_counterexample :
    (processMessage (γ := Unit) c1Session "m5" "s" "t5" (some []) [] (some "r")).historyPassed
      ≠ [⟨Role.user, "m1", "t1"⟩, ⟨Role.assistant, "m2", "t2"⟩,
         ⟨Role.user, "m3", "t3"⟩, ⟨Role.assistant, "m4", "t4"⟩] ∧
    (processMessage (γ := Unit) c1Session "m5" "s" "t5" (some []) [] (some "r")).historyPassed.length
      = 3 := by
  constructor
  · decide
  · decide

theorem lookup_setSession_self (st : MemState) (sid : String) (s : SessionMemory) :
    (setSession st sid s).lookup sid = some s := by
  induction st with
  | nil => simp [setSession]
  | cons p rest ih =>
    obtain ⟨k, v⟩ := p
    by_cases hk : k = sid
    · subst hk
      simp [setSession]
    · have hbeq : (sid == k) = false := by
        simpa [beq_iff_eq] using fun h => hk h.symm
      simp [setSession, if_neg hk, List.lookup, hbeq, ih]

theorem lastN_lastN (l : List α) (a b : Nat) (hab : a ≤ b) :
    lastN a (lastN b l) = lastN a l := by
  simp only [lastN, List.drop_drop, List.length_drop]
  congr 1
  omega

theorem lastN_append_succ (l : List α) (u : α) (n : Nat) (h : n ≤ l.length) :
    lastN (n + 1) (l ++ [u]) = lastN n l ++ [u] := by
  simp only [lastN, List.length_append, List.length_singleton]
  have h1 : l.length + 1 - (n + 1) = l.length - n := by omega
  have h2 : l.length + 1 - (n + 1) - l.length = 0 := by omega
  rw [List.drop_append_eq_append_drop, h1]
  congr 1
  rw [show l.length - n - l.length = 0 by omega, List.drop_zero]

theorem truncate_eq_lastN (l : List ConversationMessage) :
    (if l.length > MAX_MESSAGES_PER_SESSION then
      l.drop (l.length - MAX_MESSAGES_PER_SESSION)
    else l) = lastN MAX_MESSAGES_PER_SESSION l := by
  by_cases h : l.length > MAX_MESSAGES_PER_SESSION
  · rw [if_pos h]; rfl
  · rw [if_neg h, lastN, show l.length - MAX_MESSAGES_PER_SESSION = 0 by omega,
      List.drop_zero]

theorem history_after_user_append {st : MemState} {sessionId message now : String}
    {sess : SessionMemory} (hs : st.lookup sessionId = some sess) :
    getSessionHistory (addMessage st sessionId Role.user message now) sessionId
      = lastN MAX_MESSAGES_PER_SESSION
          (sess.messages ++ [⟨Role.user, message, now⟩]) := by
  simp only [addMessage, hs, getSessionHistory, lookup_setSession_self,
    truncate_eq_lastN]

/-- C1 (amended): on a session that already holds at least 4 messages
before the turn (at least 5 after the inbound user message is appended),
the history passed to the chat-generation call consists of the last 3
messages of the prior session memory — the 3 messages immediately
preceding the appended user message, in chronological order. -/
theorem history_window_passes_last3 {γ : Type} (st : MemState)
    (message sessionId now : String) (searchOutcome : Option (List γ))
    (pluginResults : List PluginResult) (chatOutcome : Option String)
    (sess : SessionMemory) (hs : st.lookup sessionId = some sess)
    (hlen : 4 ≤ sess.messages.length) :
    (processMessage st message sessionId now searchOutcome pluginResults
        chatOutcome).historyPassed
      = lastN 3 sess.messages ∧
    (processMessage st message sessionId now searchOutcome pluginResults
        chatOutcome).historyPassed.length = 3 := by
  have hpass : (processMessage st message sessionId now searchOutcome pluginResults
      chatOutcome).historyPassed
      = (getRecentMessages (addMessage st sessionId Role.user message now)
          sessionId 4).dropLast := by
    cases chatOutcome <;> rfl
  have hmain : (processMessage st message sessionId now searchOutcome pluginResults
      chatOutcome).historyPassed = lastN 3 sess.messages := by
    rw [hpass, getRecentMessages, history_after_user_append hs,
      lastN_lastN _ 4 MAX_MESSAGES_PER_SESSION (by decide),
      show (4 : Nat) = 3 + 1 from rfl,
      lastN_append_succ _ _ 3 (by omega), List.dropLast_concat]
  refine ⟨hmain, ?_⟩
  rw [hmain, lastN, List.length_drop]
  omega

/-- Witness for `history_window_passes_last3` at the concrete four-message
session `c1Session`. -/
theorem history_window_passes_last3_witness :
    (c1Session.lookup "s"
        = some ⟨"s",
            [⟨Role.user, "m1", "t1"⟩, ⟨Role.assistant, "m2", "t2"⟩,
             ⟨Role.user, "m3", "t3"⟩, ⟨Role.assistant, "m4", "t4"⟩], "t0", "t0"⟩) ∧
    (4 : Nat) ≤ 4 ∧
    ((processMessage (γ := Unit) c1Session "m5" "s" "t5" (some []) [] (some "r")).historyPassed
      = lastN 3
          [⟨Role.user, "m1", "t1"⟩, ⟨Role.assistant, "m2", "t2"⟩,
           ⟨Role.user, "m3", "t3"⟩, ⟨Role.assistant, "m4", "t4"⟩]) := by
  refine ⟨by decide, by decide, ?_⟩
  exact (history_window_passes_last3 c1Session "m5" "s" "t5" (some []) [] (some "r")
    ⟨"s",
      [⟨Role.user, "m1", "t1"⟩, ⟨Role.assistant, "m2", "t2"⟩,
       ⟨Role.user, "m3", "t3"⟩, ⟨Role.assistant, "m4", "t4"⟩], "t0", "t0"⟩
    (by decide) (by decide)).1

/-- C2 (counterexample): when the chat-generation call throws, the returned
reply is the fixed apology, but the fallback reply is not appended to
session memory — after the failed turn the session holds only the user
message appended in step 1, not the apology as a trailing
`role=assistant` entry. -/
theorem chat_failure_counterexample :
    (processMessage (γ := Unit) [] "hello" "s" "t" (some []) [] none).response.reply
      = apologyReply ∧
    getSessionHistory
        (processMessage (γ := Unit) [] "hello" "s" "t" (some []) [] none).memAfter "s"
      = [⟨Role.user, "hello", "t"⟩] ∧
    getSessionHistory
        (processMessage (γ := Unit) [] "hello" "s" "t" (some []) [] none).memAfter "s"
      ≠ [⟨Role.user, "hello", "t"⟩, ⟨Role.assistant, apologyReply, "t"⟩] := by
  refine ⟨rfl, by decide, by decide⟩

/-- C2 (amended): when the chat-generation call fails, `processMessage`
returns a response whose reply is the fixed apology text rather than
propagating the error, with `plugins_used = []` and
`context_retrieved = false`; the fallback reply is not appended to Session
Memory — the memory after the turn is exactly the state after step 1's
user-message append (step 7 runs only for successfully generated
replies). -/
theorem chat_failure_apology_not_appended {γ : Type} (st : MemState)
    (message sessionId now : String) (searchOutcome : Option (List γ))
    (pluginResults : List PluginResult) :
    (processMessage st message sessionId now searchOutcome pluginResults
        none).response.reply = apologyReply ∧
    (processMessage st message sessionId now searchOutcome pluginResults
        none).response.plugins_used = [] ∧
    (processMessage st message sessionId now searchOutcome pluginResults
        none).response.context_retrieved = false ∧
    (processMessage st message sessionId now searchOutcome pluginResults
        none).memAfter = addMessage st sessionId Role.user message now := by
  exact ⟨rfl, rfl, rfl, rfl⟩

theorem nextStart_ge (text : List Char) (start : Nat) :
    start + 800 ≤ nextStart text start := by
  have h1 : start + CHUNK_SIZE - CHUNK_OVERLAP ≤ nextStart text start :=
    Nat.le_max_left _ _
  simp only [CHUNK_SIZE, CHUNK_OVERLAP] at h1
  omega

theorem chunkTextAux_fuel_irrel (text : List Char) :
    ∀ (f1 f2 start : Nat), text.length - start ≤ f1 → text.length - start ≤ f2 →
      chunkTextAux text f1 start = chunkTextAux text f2 start := by
  intro f1
  induction f1 with
  | zero =>
    intro f2 start h1 h2
    have hs : ¬ start < text.length := by omega
    cases f2 with
    | zero => rfl
    | succ f2 => simp only [chunkTextAux, if_neg hs]
  | succ f1 ih =>
    intro f2 start h1 h2
    cases f2 with
    | zero =>
      have hs : ¬ start < text.length := by omega
      simp only [chunkTextAux, if_neg hs]
    | succ f2 =>
      by_cases hs : start < text.length
      · have hnext := nextStart_ge text start
        simp only [chunkTextAux, if_pos hs]
        rw [ih f2 (nextStart text start) (by omega) (by omega)]
      · simp only [chunkTextAux, if_neg hs]

theorem lastIndexAux_le (pat : List Char) (bound : Nat) :
    ∀ (s : List Char) (i : Nat) (best : Int), best ≤ (bound : Int) →
      lastIndexAux pat bound s i best ≤ (bound : Int) := by
  intro s
  induction s with
  | nil =>
    intro i best hb
    rw [lastIndexAux]
    by_cases hib : i > bound
    · rw [if_pos hib]; exact hb
    · rw [if_neg hib]
      by_cases hp : pat.isPrefixOf [] = true
      · simp only [hp, if_true]
        exact_mod_cast Nat.le_of_not_lt hib
      · simp only [hp, if_false]
        exact hb
  | cons c rest ih =>
    intro i best hb
    rw [lastIndexAux]
    by_cases hib : i > bound
    · rw [if_pos hib]; exact hb
    · rw [if_neg hib]
      apply ih
      by_cases hp : pat.isPrefixOf (c :: rest) = true
      · simp only [hp, if_true]
        exact_mod_cast Nat.le_of_not_lt hib
      · simp only [hp, if_false]
        exact hb

theorem lastIndexOfFrom_le (text pat : List Char) (fromIdx : Nat) :
    lastIndexOfFrom text pat fromIdx ≤ (fromIdx : Int) := by
  apply lastIndexAux_le
  omega

theorem chunkEnd_le (text : List Char) (start : Nat) :
    chunkEnd text start ≤ start + CHUNK_SIZE + 1 := by
  rw [chunkEnd]
  by_cases he : start + CHUNK_SIZE < text.length
  · simp only [if_pos he]
    by_cases hp :
        max (lastIndexOfFrom text ['.'] (start + CHUNK_SIZE))
            (lastIndexOfFrom text ['\\', 'n', '\\', 'n'] (start + CHUNK_SIZE))
          > (start : Int) + (CHUNK_SIZE / 2 : Nat)
    · rw [if_pos hp]
      have h1 := lastIndexOfFrom_le text ['.'] (start + CHUNK_SIZE)
      have h2 := lastIndexOfFrom_le text ['\\', 'n', '\\', 'n'] (start + CHUNK_SIZE)
      have h3 : max (lastIndexOfFrom text ['.'] (start + CHUNK_SIZE))
          (lastIndexOfFrom text ['\\', 'n', '\\', 'n'] (start + CHUNK_SIZE))
          ≤ ((start + CHUNK_SIZE : Nat) : Int) := max_le h1 h2
      omega
    · rw [if_neg hp]
      omega
  · simp only [if_neg he]
    omega

theorem trimChars_length_le (l : List Char) : (trimChars l).length ≤ l.length := by
  simp only [trimChars, List.length_reverse]
  calc ((l.dropWhile Char.isWhitespace).reverse.dropWhile Char.isWhitespace).length
      ≤ (l.dropWhile Char.isWhitespace).reverse.length :=
        (List.dropWhile_sublist _).length_le
    _ = (l.dropWhile Char.isWhitespace).length := List.length_reverse _
    _ ≤ l.length := (List.dropWhile_sublist _).length_le

theorem dropWhile_exists_not {p : Char → Bool} {l : List Char}
    (h : l.dropWhile p ≠ []) : ∃ x ∈ l.dropWhile p, p x = false := by
  induction l with
  | nil => simp at h
  | cons a l ih =>
    by_cases ha : p a = true
    · rw [List.dropWhile_cons_of_pos ha] at *
      exact ih h
    · rw [List.dropWhile_cons_of_neg ha] at *
      exact ⟨a, List.mem_cons_self _ _, by simpa using ha⟩

theorem mem_dropWhile_of_not {p : Char → Bool} {l : List Char} {x : Char}
    (hx : x ∈ l) (hp : p x = false) : x ∈ l.dropWhile p := by
  induction l with
  | nil => simp at hx
  | cons a l ih =>
    by_cases ha : p a = true
    · rw [List.dropWhile_cons_of_pos ha]
      rcases List.mem_cons.mp hx with h | h
      · subst h; rw [ha] at hp; simp at hp
      · exact ih h
    · rw [List.dropWhile_cons_of_neg ha]
      exact hx

theorem trimChars_exists_not_ws {l : List Char} (h : trimChars l ≠ []) :
    ∃ c ∈ trimChars l, c.isWhitespace = false := by
  have hm : (l.dropWhile Char.isWhitespace).reverse.dropWhile Char.isWhitespace ≠ [] := by
    intro hnil
    apply h
    simp [trimChars, hnil]
  obtain ⟨x, hx, hpx⟩ := dropWhile_exists_not hm
  exact ⟨x, by simpa [trimChars] using List.mem_reverse.mpr hx, hpx⟩

theorem trimChars_ne_nil {l : List Char} {x : Char} (hx : x ∈ l)
    (hpx : x.isWhitespace = false) : trimChars l ≠ [] := by
  have h1 : x ∈ l.dropWhile Char.isWhitespace := mem_dropWhile_of_not hx hpx
  have h2 : x ∈ (l.dropWhile Char.isWhitespace).reverse := List.mem_reverse.mpr h1
  have h3 : x ∈ (l.dropWhile Char.isWhitespace).reverse.dropWhile Char.isWhitespace :=
    mem_dropWhile_of_not h2 hpx
  intro hnil
  rw [trimChars] at hnil
  rw [List.reverse_eq_nil_iff.mp hnil] at h3
  simp at h3

theorem chunkTextAux_stop (text : List Char) (f start : Nat)
    (h : ¬ start < text.length) : chunkTextAux text f start = [] := by
  cases f with
  | zero => rfl
  | succ f => simp only [chunkTextAux, if_neg h]

theorem chunkTextAux_mem :
    ∀ (fuel : Nat) (text : List Char) (start : Nat),
      ∀ c ∈ chunkTextAux text fuel start,
        c.length ≤ CHUNK_SIZE + 1 ∧ ∃ ch ∈ c, ch.isWhitespace = false := by
  intro fuel
  induction fuel with
  | zero =>
    intro text start c hc
    simp [chunkTextAux] at hc
  | succ fuel ih =>
    intro text start c hc
    rw [chunkTextAux] at hc
    by_cases hs : start < text.length
    · rw [if_pos hs] at hc
      have hrest := ih text (nextStart text start)
      set ck := trimChars ((text.drop start).take (chunkEnd text start - start)) with hck
      by_cases hlen : ck.length > 0
      · simp only [if_pos hlen, List.mem_cons] at hc
        rcases hc with hc | hc
        · subst hc
          constructor
          · calc ck.length ≤ ((text.drop start).take (chunkEnd text start - start)).length :=
                trimChars_length_le _
              _ ≤ chunkEnd text start - start := by
                rw [List.length_take]; exact min_le_left _ _
              _ ≤ CHUNK_SIZE + 1 := by
                have := chunkEnd_le text start
                omega
          · exact trimChars_exists_not_ws (by
              intro hnil
              rw [hck] at hlen
              rw [hnil] at hlen
              simp at hlen)
        · exact hrest c hc
      · simp only [if_neg hlen] at hc
        exact hrest c hc
    · rw [if_neg hs] at hc
      simp at hc

theorem lastIndexAux_dot :
    ∀ (r : List Char) (i : Nat) (best : Int), (∀ c ∈ r, c = 'a') →
      lastIndexAux ['.'] (i + r.length) (r ++ ['.', 'a']) i best
        = ((i + r.length : Nat) : Int) := by
  intro r
  induction r with
  | nil =>
    intro i best _
    simp only [List.length_nil, List.nil_append]
    rw [lastIndexAux, if_neg (by omega)]
    have hp : (['.'] : List Char).isPrefixOf ['.', 'a'] = true := by decide
    simp only [hp, if_true]
    rw [lastIndexAux, if_pos (by omega)]
    simp
  | cons c rest ih =>
    intro i best h
    have hc : c = 'a' := h c (List.mem_cons_self _ _)
    subst hc
    simp only [List.length_cons, List.cons_append]
    rw [lastIndexAux, if_neg (by omega)]
    have hp : (['.'] : List Char).isPrefixOf ('a' :: (rest ++ ['.', 'a'])) = false := by
      simp [List.isPrefixOf]
    simp only [hp, if_false, Bool.false_eq_true]
    have hb : i + (rest.length + 1) = (i + 1) + rest.length := by omega
    rw [hb]
    exact ih (i + 1) best (fun x hx => h x (List.mem_cons_of_mem _ hx))

theorem lastIndexAux_bs (bound : Nat) :
    ∀ (s : List Char) (i : Nat) (best : Int), (∀ c ∈ s, c ≠ '\\') →
      lastIndexAux ['\\', 'n', '\\', 'n'] bound s i best = best := by
  intro s
  induction s with
  | nil =>
    intro i best _
    rw [lastIndexAux]
    by_cases hib : i > bound
    · rw [if_pos hib]
    · rw [if_neg hib]
      have hp : (['\\', 'n', '\\', 'n'] : List Char).isPrefixOf [] = false := by decide
      simp [hp]
  | cons c rest ih =>
    intro i best h
    rw [lastIndexAux]
    by_cases hib : i > bound
    · rw [if_pos hib]
    · rw [if_neg hib]
      have hc : ('\\' == c) = false := by
        have := h c (List.mem_cons_self _ _)
        simpa [beq_iff_eq] using fun he => this he.symm
      have hp : (['\\', 'n', '\\', 'n'] : List Char).isPrefixOf (c :: rest) = false := by
        simp [List.isPrefixOf, hc]
      simp only [hp, if_false, Bool.false_eq_true]
      exact ih (i + 1) best (fun x hx => h x (List.mem_cons_of_mem _ hx))

theorem lastIndexOfFrom_dot (r : List Char) (hlen : r.length = 1000)
    (ha : ∀ c ∈ r, c = 'a') :
    lastIndexOfFrom (r ++ ['.', 'a']) ['.'] (0 + CHUNK_SIZE) = 1000 := by
  show lastIndexAux ['.'] (0 + 1000) (r ++ ['.', 'a']) 0 (-1) = 1000
  have h := lastIndexAux_dot r 0 (-1) ha
  rw [hlen] at h
  rw [h]
  decide

theorem lastIndexOfFrom_bs (r : List Char) (ha : ∀ c ∈ r, c = 'a') :
    lastIndexOfFrom (r ++ ['.', 'a']) ['\\', 'n', '\\', 'n'] (0 + CHUNK_SIZE) = -1 := by
  rw [lastIndexOfFrom]
  apply lastIndexAux_bs
  intro c hc
  rcases List.mem_append.mp hc with h | h
  · rw [ha c h]; decide
  · rcases List.mem_cons.mp h with h | h
    · rw [h]; decide
    · rw [List.mem_singleton.mp h]; decide

theorem chunkEnd_dot_window (r : List Char) (hlen : r.length = 1000)
    (ha : ∀ c ∈ r, c = 'a') :
    chunkEnd (r ++ ['.', 'a']) 0 = 1001 := by
  have hL : (r ++ ['.', 'a']).length = 1002 := by
    rw [List.length_append, hlen]
    rfl
  rw [chunkEnd]
  dsimp only
  rw [hL, if_pos (by decide), lastIndexOfFrom_dot r hlen ha, lastIndexOfFrom_bs r ha]
  decide

theorem trimChars_all_a_dot (r : List Char) (hne : r ≠ [])
    (ha : ∀ c ∈ r, c = 'a') :
    trimChars (r ++ ['.']) = r ++ ['.'] := by
  obtain ⟨c, rest, hr⟩ : ∃ c rest, r = c :: rest := by
    cases r with
    | nil => exact absurd rfl hne
    | cons c rest => exact ⟨c, rest, rfl⟩
  subst hr
  have hc : c = 'a' := ha c (List.mem_cons_self _ _)
  subst hc
  rw [trimChars, List.cons_append,
    List.dropWhile_cons_of_neg (by decide), ← List.cons_append, List.reverse_append]
  simp only [List.reverse_cons, List.reverse_nil, List.nil_append, List.singleton_append]
  rw [List.dropWhile_cons_of_neg (by decide)]
  simp [List.reverse_cons, List.reverse_reverse]

theorem chunkText_dot_window_head (r : List Char) (hlen : r.length = 1000)
    (ha : ∀ c ∈ r, c = 'a') :
    chunkText (r ++ ['.', 'a'])
      = (r ++ ['.']) ::
          chunkTextAux (r ++ ['.', 'a']) 1001 (nextStart (r ++ ['.', 'a']) 0) := by
  have hL : (r ++ ['.', 'a']).length = 1002 := by
    rw [List.length_append, hlen]
    rfl
  rw [chunkText, hL]
  show chunkTextAux _ (1001 + 1) 0 = _
  rw [chunkTextAux, if_pos (by rw [hL]; omega)]
  dsimp only
  rw [chunkEnd_dot_window r hlen ha]
  have htake : List.take (1001 - 0) (List.drop 0 (r ++ ['.', 'a'])) = r ++ ['.'] := by
    rw [List.drop_zero, List.take_append_eq_append_take,
      List.take_of_length_le (by rw [hlen]; omega), hlen]
    rfl
  rw [htake, trimChars_all_a_dot r (by intro h; rw [h] at hlen; simp at hlen) ha,
    if_pos (by rw [List.length_append, hlen]; omega)]

/-- C6 (counterexample): a chunk longer than 1000 characters.  On the
1002-character input `replicate 1000 'a' ++ ['.', 'a']` the sentence
terminator sits exactly at the window end (index 1000), so
`end = lastParagraph + 1 = 1001` and the first chunk has 1001
characters. -/
theorem chunk_length_counterexample :
    ∃ c ∈ chunkText (List.replicate 1000 'a' ++ ['.', 'a']), 1000 < c.length := by
  have hlen : (List.replicate 1000 'a').length = 1000 := by
    rw [List.length_replicate]
  have ha : ∀ c ∈ List.replicate 1000 'a', c = 'a' :=
    fun c hc => (List.mem_replicate.mp hc).2
  refine ⟨List.replicate 1000 'a' ++ ['.'], ?_, ?_⟩
  · rw [chunkText_dot_window_head _ hlen ha]
    exact List.mem_cons_self _ _
  · rw [List.length_append, hlen, List.length_singleton]
    omega

/-- C6 (amended): every chunk produced by the chunker has length at most
1001 characters (the natural-boundary rule can place the cut one past the
window end, `CHUNK_SIZE + 1`) and is neither empty nor whitespace-only;
and every input of length < 1000 containing a non-whitespace character
yields exactly one chunk equal to the trimmed input. -/
theorem chunker_bounds_and_short_input :
    (∀ (text : List Char), ∀ c ∈ chunkText text,
        c.length ≤ CHUNK_SIZE + 1 ∧ ∃ ch ∈ c, ch.isWhitespace = false) ∧
    (∀ text : List Char, text.length < CHUNK_SIZE →
        (∃ ch ∈ text, ch.isWhitespace = false) →
        chunkText text = [trimChars text]) := by
  constructor
  · intro text c
    exact chunkTextAux_mem text.length text 0 c
  · intro text hlen hch
    obtain ⟨x, hx, hpx⟩ := hch
    have hne : text ≠ [] := by
      intro h; rw [h] at hx; simp at hx
    have hpos : 0 < text.length := List.length_pos.mpr hne
    have hend : chunkEnd text 0 = CHUNK_SIZE := by
      rw [chunkEnd]
      simp only [CHUNK_SIZE] at hlen ⊢
      rw [if_neg (by omega)]
    have htake : (text.drop 0).take (chunkEnd text 0 - 0) = text := by
      rw [List.drop_zero, hend]
      apply List.take_of_length_le
      simp only [CHUNK_SIZE] at hlen ⊢
      omega
    have hnext : nextStart text 0 = CHUNK_SIZE := by
      rw [nextStart, hend]
      simp [CHUNK_SIZE, CHUNK_OVERLAP]
    obtain ⟨f, hf⟩ : ∃ f, text.length = f + 1 := ⟨text.length - 1, by omega⟩
    rw [chunkText, hf]
    simp only [chunkTextAux]
    rw [if_pos (by omega), htake, hnext,
      chunkTextAux_stop text f CHUNK_SIZE (by simp only [CHUNK_SIZE] at hlen ⊢; omega),
      if_pos (List.length_pos.mpr (trimChars_ne_nil hx hpx))]

/-- Witness for `chunker_bounds_and_short_input` at the concrete input
`"hi"`. -/
theorem chunker_bounds_and_short_input_witness :
    (['h', 'i'] ∈ chunkText ['h', 'i'] ∧
      (['h', 'i'] : List Char).length ≤ CHUNK_SIZE + 1 ∧
      ∃ ch ∈ (['h', 'i'] : List Char), ch.isWhitespace = false) ∧
    ((['h', 'i'] : List Char).length < CHUNK_SIZE ∧
      chunkText ['h', 'i'] = [trimChars ['h', 'i']]) := by
  have hmem : (['h', 'i'] : List Char) ∈ chunkText ['h', 'i'] := by decide
  refine ⟨⟨hmem, ?_⟩, by decide, ?_⟩
  · exact chunker_bounds_and_short_input.1 ['h', 'i'] _ hmem
  · exact chunker_bounds_and_short_input.2 ['h', 'i'] (by decide) (by decide)

/-- C7: the chunker terminates on every finite input.  The scan position
advances to `max(chunkStart + maxSize − overlap, windowEnd)`, which with
`CHUNK_SIZE = 1000` and `CHUNK_OVERLAP = 200` strictly increases the start
by at least 800 on every iteration; consequently the loop from any
position completes within `text.length - start` iterations — granting the
fueled embedding any extra fuel beyond that budget never changes its
output, so `chunkText`'s budget of `text.length` iterations is never
exhausted. -/
theorem chunker_progress (text : List Char) (start k : Nat) :
    nextStart text start
        = max (start + CHUNK_SIZE - CHUNK_OVERLAP) (chunkEnd text start) ∧
    start + 800 ≤ nextStart text start ∧
    start < nextStart text start ∧
    chunkTextAux text (text.length - start + k) start
        = chunkTextAux text (text.length - start) start := by
  refine ⟨rfl, nextStart_ge text start, ?_, ?_⟩
  · have h1 := nextStart_ge text start
    omega
  · exact chunkTextAux_fuel_irrel text _ _ start (by omega) (by omega)

theorem sum_map_neg_eq (v : List ℝ) (f : ℝ → ℝ) :
    (v.map fun x => -(f x)).sum = -(v.map f).sum := by
  induction v with
  | nil => simp
  | cons a l ih => simp [ih]; ring

theorem sumSq_nonneg (v : List ℝ) : 0 ≤ (List.zipWith (· * ·) v v).sum := by
  rw [List.zipWith_same]
  exact List.sum_nonneg (fun x hx => by
    obtain ⟨y, _, rfl⟩ := List.mem_map.mp hx
    exact mul_self_nonneg y)

theorem sumSq_pos (v : List ℝ) (hv : ∃ x ∈ v, x ≠ 0) :
    0 < (List.zipWith (· * ·) v v).sum := by
  obtain ⟨x, hx, hx0⟩ := hv
  rw [List.zipWith_same]
  have h1 : x * x ≤ (v.map fun a => a * a).sum := by
    apply List.single_le_sum
    · intro y hy
      obtain ⟨z, _, rfl⟩ := List.mem_map.mp hy
      exact mul_self_nonneg z
    · exact List.mem_map_of_mem _ hx
  exact lt_of_lt_of_le (mul_self_pos.mpr hx0) h1

/-- C4: algebraic properties of `cosineSimilarity`: `sim(v,v) = 1` and
`sim(v,-v) = -1` for every vector with a nonzero entry, `sim(v,0) = 0` for
every vector (a zero-magnitude operand yields 0, never an undefined
value), symmetry, and `none` (the thrown error) exactly on unequal
lengths. -/
theorem cosineSimilarity_props :
    (∀ v : List ℝ, (∃ x ∈ v, x ≠ 0) → cosineSimilarity v v = some 1) ∧
    (∀ v : List ℝ, (∃ x ∈ v, x ≠ 0) →
        cosineSimilarity v (v.map fun x => -x) = some (-1)) ∧
    (∀ v : List ℝ, cosineSimilarity v (List.replicate v.length 0) = some 0) ∧
    (∀ a b : List ℝ, cosineSimilarity a b = cosineSimilarity b a) ∧
    (∀ a b : List ℝ, a.length ≠ b.length → cosineSimilarity a b = none) := by
  refine ⟨?_, ?_, ?_, ?_, ?_⟩
  · intro v hv
    rw [cosineSimilarity, if_neg (by simp)]
    dsimp only
    rw [Real.mul_self_sqrt (sumSq_nonneg v), if_neg (sumSq_pos v hv).ne',
      div_self (sumSq_pos v hv).ne']
  · intro v hv
    have hdot : (List.zipWith (· * ·) v (v.map fun x => -x)).sum
        = -(List.zipWith (· * ·) v v).sum := by
      rw [List.zipWith_map_right, List.zipWith_same]
      have he : (fun a : ℝ => a * -a) = fun a : ℝ => -(a * a) := by
        funext a; ring
      rw [he, sum_map_neg_eq, List.zipWith_same]
    have hnormB : (List.zipWith (· * ·) (v.map fun x => -x) (v.map fun x => -x)).sum
        = (List.zipWith (· * ·) v v).sum := by
      rw [List.zipWith_same, List.map_map]
      have he : ((fun a : ℝ => a * a) ∘ fun x : ℝ => -x) = fun a : ℝ => a * a := by
        funext a; simp
      rw [he, List.zipWith_same]
    rw [cosineSimilarity, if_neg (by simp)]
    dsimp only
    rw [hdot, hnormB, Real.mul_self_sqrt (sumSq_nonneg v),
      if_neg (sumSq_pos v hv).ne', neg_div, div_self (sumSq_pos v hv).ne']
  · intro v
    rw [cosineSimilarity, if_neg (by simp)]
    dsimp only
    have hz : (List.zipWith (· * ·)
        (List.replicate v.length (0 : ℝ)) (List.replicate v.length (0 : ℝ))).sum = 0 := by
      rw [List.zipWith_same, List.map_replicate]
      simp
    rw [hz, Real.sqrt_zero, mul_zero, if_pos rfl]
  · intro a b
    by_cases h : a.length = b.length
    · rw [cosineSimilarity, cosineSimilarity]
      rw [if_neg (show ¬ a.length ≠ b.length by omega)]
      rw [if_neg (show ¬ b.length ≠ a.length by omega)]
      dsimp only
      rw [List.zipWith_comm_of_comm (· * ·) mul_comm a b,
        mul_comm (Real.sqrt (List.zipWith (· * ·) a a).sum)
          (Real.sqrt (List.zipWith (· * ·) b b).sum)]
    · rw [cosineSimilarity, cosineSimilarity, if_pos h, if_pos (Ne.symm h)]
  · intro a b h
    rw [cosineSimilarity, if_pos h]

/-- Witness for `cosineSimilarity_props` at concrete one- and
two-dimensional vectors. -/
theorem cosineSimilarity_props_witness :
    (∃ x ∈ ([1] : List ℝ), x ≠ 0) ∧
    cosineSimilarity [1] [1] = some 1 ∧
    cosineSimilarity [1] (([1] : List ℝ).map fun x => -x) = some (-1) ∧
    cosineSimilarity [1] (List.replicate ([1] : List ℝ).length 0) = some 0 ∧
    cosineSimilarity [1] [2] = cosineSimilarity [2] [1] ∧
    (([1, 2] : List ℝ).length ≠ ([1] : List ℝ).length) ∧
    cosineSimilarity [1, 2] [1] = none := by
  have hv : ∃ x ∈ ([1] : List ℝ), x ≠ 0 := ⟨1, by simp, one_ne_zero⟩
  refine ⟨hv, cosineSimilarity_props.1 [1] hv, cosineSimilarity_props.2.1 [1] hv,
    cosineSimilarity_props.2.2.1 [1], cosineSimilarity_props.2.2.2.1 [1] [2],
    by simp, cosineSimilarity_props.2.2.2.2 [1, 2] [1] (by simp)⟩

theorem rankedBefore_sim_ge {a b : SearchResult} (h : rankedBefore a b) :
    b.similarity ≤ a.similarity := by
  rcases h with h | ⟨h, _⟩
  · exact le_of_lt h
  · exact le_of_eq h.symm

theorem mem_insertResult {l : List SearchResult} {x z : SearchResult} :
    z ∈ insertResult l x ↔ z ∈ l ∨ z = x := by
  induction l with
  | nil => simp [insertResult]
  | cons y ys ih =>
    rw [insertResult]
    by_cases hc : y.similarity < x.similarity
    · rw [if_pos hc]
      simp only [List.mem_cons]
      tauto
    · rw [if_neg hc]
      simp only [List.mem_cons, ih]
      tauto

theorem pairwise_insertResult {l : List SearchResult} {x : SearchResult}
    (hl : l.Pairwise rankedBefore) (hidx : ∀ y ∈ l, y.index < x.index) :
    (insertResult l x).Pairwise rankedBefore := by
  induction l with
  | nil => simp [insertResult]
  | cons y ys ih =>
    obtain ⟨hy, hys⟩ := List.pairwise_cons.mp hl
    rw [insertResult]
    by_cases hc : y.similarity < x.similarity
    · rw [if_pos hc]
      refine List.pairwise_cons.mpr ⟨?_, hl⟩
      intro z hz
      rcases List.mem_cons.mp hz with rfl | hz
      · exact Or.inl hc
      · exact Or.inl (lt_of_le_of_lt (rankedBefore_sim_ge (hy z hz)) hc)
    · rw [if_neg hc]
      refine List.pairwise_cons.mpr
        ⟨?_, ih hys (fun z hz => hidx z (List.mem_cons_of_mem _ hz))⟩
      intro z hz
      rcases mem_insertResult.mp hz with hz | rfl
      · exact hy z hz
      · rcases eq_or_lt_of_le (not_lt.mp hc) with heq | hlt
        · exact Or.inr ⟨heq.symm, hidx y (List.mem_cons_self _ _)⟩
        · exact Or.inl hlt

theorem pairwise_foldl_insert :
    ∀ (l acc : List SearchResult), acc.Pairwise rankedBefore →
      (∀ y ∈ acc, ∀ x ∈ l, y.index < x.index) →
      l.Pairwise (fun a b => a.index < b.index) →
      (l.foldl insertResult acc).Pairwise rankedBefore := by
  intro l
  induction l with
  | nil =>
    intro acc h _ _
    simpa using h
  | cons x l ih =>
    intro acc hacc haccl hl
    obtain ⟨hx, hl'⟩ := List.pairwise_cons.mp hl
    rw [List.foldl_cons]
    apply ih
    · exact pairwise_insertResult hacc (fun y hy => haccl y hy x (List.mem_cons_self _ _))
    · intro y hy z hz
      rcases mem_insertResult.mp hy with hy | rfl
      · exact haccl y hy z (List.mem_cons_of_mem _ hz)
      · exact hx z hz
    · exact hl'

theorem pairwise_sortByScoreDesc {l : List SearchResult}
    (h : l.Pairwise (fun a b => a.index < b.index)) :
    (sortByScoreDesc l).Pairwise rankedBefore :=
  pairwise_foldl_insert l [] List.Pairwise.nil (by simp) h

theorem le_fst_of_mem_enumFrom {α : Type} {p : Nat × α} :
    ∀ {l : List α} {n : Nat}, p ∈ l.enumFrom n → n ≤ p.1 := by
  intro l
  induction l with
  | nil =>
    intro n h
    simp [List.enumFrom] at h
  | cons a l ih =>
    intro n h
    simp only [List.enumFrom, List.mem_cons] at h
    rcases h with h | h
    · rw [h]
    · have := ih h
      omega

theorem pairwise_fst_enumFrom {α : Type} (l : List α) :
    ∀ n, (l.enumFrom n).Pairwise (fun p q => p.1 < q.1) := by
  induction l with
  | nil =>
    intro n
    simp [List.enumFrom]
  | cons a l ih =>
    intro n
    simp only [List.enumFrom]
    refine List.pairwise_cons.mpr ⟨?_, ih (n + 1)⟩
    intro q hq
    have := le_fst_of_mem_enumFrom hq
    simp only []
    omega

theorem pairwise_fst_enum {α : Type} (l : List α) :
    l.enum.Pairwise (fun p q => p.1 < q.1) :=
  pairwise_fst_enumFrom l 0

theorem scoreAll_map_index {qe : List ℝ} {query : List Char} :
    ∀ {el : List (Nat × Document)} {res : List SearchResult},
      scoreAll qe query el = some res → res.map (·.index) = el.map (·.1) := by
  intro el
  induction el with
  | nil =>
    intro res h
    simp only [scoreAll, Option.some.injEq] at h
    rw [← h]
    simp
  | cons p rest ih =>
    intro res h
    obtain ⟨i, d⟩ := p
    rw [scoreAll] at h
    cases hd : scoreDoc qe query d with
    | none => rw [hd] at h; simp at h
    | some s =>
      rw [hd] at h
      cases hr : scoreAll qe query rest with
      | none => rw [hr] at h; simp at h
      | some rs =>
        rw [hr] at h
        simp only [Option.some.injEq] at h
        rw [← h]
        simp only [List.map_cons]
        rw [ih hr]

theorem pairwise_index_of_map_eq {res : List SearchResult}
    {el : List (Nat × Document)}
    (hmap : res.map (·.index) = el.map (·.1))
    (hel : el.Pairwise (fun p q => p.1 < q.1)) :
    res.Pairwise (fun a b => a.index < b.index) := by
  have h1 : (el.map (·.1)).Pairwise (· < ·) := List.pairwise_map.mpr hel
  rw [← hmap] at h1
  exact List.pairwise_map.mp h1

theorem fallbackTextSearch_ranking (docs : List Document) (query : List Char)
    (k : Nat) :
    (fallbackTextSearch docs query k).length ≤ k ∧
    (fallbackTextSearch docs query k).Pairwise rankedBefore := by
  rw [fallbackTextSearch]
  constructor
  · rw [List.length_take]
    exact min_le_left _ _
  · apply List.Pairwise.sublist (List.take_sublist _ _)
    apply pairwise_sortByScoreDesc
    exact List.pairwise_map.mpr (pairwise_fst_enum docs)

/-- C5: for every non-empty store, query, embedding-oracle outcome and k,
`searchSimilar` returns at most k results, ranked by similarity descending
with ties broken by the documents' insertion order into the store; the
embedding-scored and lexically-scored documents sit merged in this single
ranking (both scoring paths feed the same list before it is sorted and
truncated). -/
theorem searchSimilar_ranking (embed : List Char → Option (List ℝ))
    (docs : List Document) (query : List Char) (k : Nat) (hne : docs ≠ []) :
    (searchSimilar embed docs query k).1.length ≤ k ∧
    (searchSimilar embed docs query k).1.Pairwise rankedBefore := by
  cases docs with
  | nil => exact absurd rfl hne
  | cons d ds =>
    cases hq : embed query with
    | none =>
      simp only [searchSimilar, hq]
      exact fallbackTextSearch_ranking _ _ _
    | some qe =>
      cases hs : scoreAll qe query ((d :: ds).enum) with
      | none =>
        simp only [searchSimilar, hq, hs]
        exact fallbackTextSearch_ranking _ _ _
      | some results =>
        simp only [searchSimilar, hq, hs]
        constructor
        · rw [List.length_take]
          exact min_le_left _ _
        · apply List.Pairwise.sublist (List.take_sublist _ _)
          apply pairwise_sortByScoreDesc
          exact pairwise_index_of_map_eq (scoreAll_map_index hs) (pairwise_fst_enum _)

/-- Witness for `searchSimilar_ranking` at a concrete one-document store
whose embedding oracle fails (lexical path). -/
theorem searchSimilar_ranking_witness :
    (([⟨"d", ['x'], none⟩] : List Document) ≠ []) ∧
    (searchSimilar (fun _ => none) [⟨"d", ['x'], none⟩] ['q'] 3).1.length ≤ 3 ∧
    (searchSimilar (fun _ => none) [⟨"d", ['x'], none⟩] ['q'] 3).1.Pairwise
      rankedBefore := by
  refine ⟨by simp, ?_⟩
  exact searchSimilar_ranking (fun _ => none) [⟨"d", ['x'], none⟩] ['q'] 3 (by simp)

/-- C10: on an empty document store, `searchSimilar` returns the empty
result list immediately and performs zero invocations of the embedding
capability (the counter in the second component stays 0). -/
theorem searchSimilar_empty_store (embed : List Char → Option (List ℝ))
    (query : List Char) (k : Nat) :
    searchSimilar embed [] query k = ([], 0) := rfl

/-- C9: on the message `"What is 12 * 4?"` the math plugin triggers,
pattern 2 extracts `"12 * 4"`, sanitization yields `"12*4"`, evaluation
succeeds with 48, the plugin reports a success outcome carrying exactly
that expression and result, the weather plugin does not trigger, and for
every weather-oracle value and memory state the turn response's
`plugins_used` is `["math"]`. -/
theorem math_plugin_scenario :
    mathShouldExecute ("What is 12 * 4?".toList) = true ∧
    extractExpression ("What is 12 * 4?".toList) = some ("12 * 4".toList) ∧
    cleanExpression ("12 * 4".toList) = "12*4".toList ∧
    (evaluate ("12*4".toList)).map fracToRat = some 48 ∧
    mathPluginExecute ("What is 12 * 4?".toList)
      = { plugin_name := "math", result := .math ⟨"12*4", 48, true⟩,
          success := true, error := none } ∧
    weatherShouldExecute ("What is 12 * 4?".toList) = false ∧
    ∀ (w : PluginResult) (st : MemState) (sid now reply : String)
      (searchOutcome : Option (List Unit)),
      (processMessage st "What is 12 * 4?" sid now searchOutcome
          (executePlugins ("What is 12 * 4?".toList) w)
          (some reply)).response.plugins_used = ["math"] := by
  have hex : extractExpression ("What is 12 * 4?".toList)
      = some ("12 * 4".toList) := by decide
  have hclean : cleanExpression ("12 * 4".toList) = "12*4".toList := by decide
  have hev : evaluate ("12*4".toList) = some ((48 : Int), (1 : Int)) := by decide
  have hfr : fracToRat ((48 : Int), (1 : Int)) = 48 := by
    norm_num [fracToRat]
  have hexec : mathPluginExecute ("What is 12 * 4?".toList)
      = { plugin_name := "math", result := .math ⟨"12*4", 48, true⟩,
          success := true, error := none } := by
    rw [mathPluginExecute, hex]
    dsimp only
    rw [hclean, hev]
    dsimp only
    rw [hfr]
    rfl
  have hw : weatherShouldExecute ("What is 12 * 4?".toList) = false := by decide
  have hm : mathShouldExecute ("What is 12 * 4?".toList) = true := by decide
  refine ⟨hm, hex, hclean, by rw [hev]; simp [hfr], hexec, hw, ?_⟩
  intro w st sid now reply searchOutcome
  have hplug : executePlugins ("What is 12 * 4?".toList) w
      = [mathPluginExecute ("What is 12 * 4?".toList)] := by
    rw [executePlugins, hw, hm]
    simp
  rw [hplug]
  show ([mathPluginExecute ("What is 12 * 4?".toList)].map
    (fun r => r.plugin_name)) = ["math"]
  rw [hexec]
  rfl

theorem hasFileChanged_iff (f : SourceFile) (md : FileMetadata) :
    hasFileChanged f md = true ↔
      (f.hash ≠ md.fileHash ∨ f.mtime ≠ md.lastModified) := by
  simp [hasFileChanged]

theorem classifyFiles_spec (existing : List (String × FileMetadata)) :
    ∀ fs : List SourceFile,
      (∀ f, f ∈ (classifyFiles existing fs).1 ↔
        f ∈ fs ∧ existing.lookup f.name = none) ∧
      (∀ f, f ∈ (classifyFiles existing fs).2.1 ↔
        f ∈ fs ∧ ∃ md, existing.lookup f.name = some md ∧
          (f.hash ≠ md.fileHash ∨ f.mtime ≠ md.lastModified)) ∧
      (∀ f, f ∈ (classifyFiles existing fs).2.2 ↔
        f ∈ fs ∧ ∃ md, existing.lookup f.name = some md ∧
          f.hash = md.fileHash ∧ f.mtime = md.lastModified) ∧
      (classifyFiles existing fs).1.length + (classifyFiles existing fs).2.1.length
        + (classifyFiles existing fs).2.2.length = fs.length := by
  intro fs
  induction fs with
  | nil => simp [classifyFiles]
  | cons g rest ih =>
    obtain ⟨ihn, ihc, ihu, ihl⟩ := ih
    rw [classifyFiles]
    cases hl : existing.lookup g.name with
    | none =>
      dsimp only
      refine ⟨?_, ?_, ?_, ?_⟩
      · intro f
        simp only [List.mem_cons, ihn f]
        constructor
        · rintro (rfl | ⟨hf, hn⟩)
          · exact ⟨Or.inl rfl, hl⟩
          · exact ⟨Or.inr hf, hn⟩
        · rintro ⟨rfl | hf, hn⟩
          · exact Or.inl rfl
          · exact Or.inr ⟨hf, hn⟩
      · intro f
        rw [ihc f]
        simp only [List.mem_cons]
        constructor
        · rintro ⟨hf, md, hmd, hne⟩
          exact ⟨Or.inr hf, md, hmd, hne⟩
        · rintro ⟨rfl | hf, md, hmd, hne⟩
          · rw [hl] at hmd; simp at hmd
          · exact ⟨hf, md, hmd, hne⟩
      · intro f
        rw [ihu f]
        simp only [List.mem_cons]
        constructor
        · rintro ⟨hf, md, hmd, heq⟩
          exact ⟨Or.inr hf, md, hmd, heq⟩
        · rintro ⟨rfl | hf, md, hmd, heq⟩
          · rw [hl] at hmd; simp at hmd
          · exact ⟨hf, md, hmd, heq⟩
      · simp only [List.length_cons]
        omega
    | some md =>
      dsimp only
      by_cases hch : hasFileChanged g md
      · rw [if_pos hch]
        refine ⟨?_, ?_, ?_, ?_⟩
        · intro f
          rw [ihn f]
          simp only [List.mem_cons]
          constructor
          · rintro ⟨hf, hn⟩
            exact ⟨Or.inr hf, hn⟩
          · rintro ⟨rfl | hf, hn⟩
            · rw [hl] at hn; simp at hn
            · exact ⟨hf, hn⟩
        · intro f
          simp only [List.mem_cons, ihc f]
          constructor
          · rintro (rfl | ⟨hf, md', hmd, hne⟩)
            · exact ⟨Or.inl rfl, md, hl, (hasFileChanged_iff _ md).mp hch⟩
            · exact ⟨Or.inr hf, md', hmd, hne⟩
          · rintro ⟨rfl | hf, md', hmd, hne⟩
            · exact Or.inl rfl
            · exact Or.inr ⟨hf, md', hmd, hne⟩
        · intro f
          rw [ihu f]
          simp only [List.mem_cons]
          constructor
          · rintro ⟨hf, md', hmd, heq⟩
            exact ⟨Or.inr hf, md', hmd, heq⟩
          · rintro ⟨rfl | hf, md', hmd, heq⟩
            · rw [hl] at hmd
              obtain rfl : md = md' := by simpa using hmd
              rw [hasFileChanged_iff] at hch
              rcases hch with h | h
              · exact absurd heq.1 h
              · exact absurd heq.2 h
            · exact ⟨hf, md', hmd, heq⟩
        · simp only [List.length_cons]
          omega
      · rw [if_neg hch]
        have hch' : ¬ (g.hash ≠ md.fileHash ∨ g.mtime ≠ md.lastModified) := by
          rw [← hasFileChanged_iff]
          simpa using hch
        push_neg at hch'
        refine ⟨?_, ?_, ?_, ?_⟩
        · intro f
          rw [ihn f]
          simp only [List.mem_cons]
          constructor
          · rintro ⟨hf, hn⟩
            exact ⟨Or.inr hf, hn⟩
          · rintro ⟨rfl | hf, hn⟩
            · rw [hl] at hn; simp at hn
            · exact ⟨hf, hn⟩
        · intro f
          rw [ihc f]
          simp only [List.mem_cons]
          constructor
          · rintro ⟨hf, md', hmd, hne⟩
            exact ⟨Or.inr hf, md', hmd, hne⟩
          · rintro ⟨rfl | hf, md', hmd, hne⟩
            · rw [hl] at hmd
              obtain rfl : md = md' := by simpa using hmd
              rcases hne with h | h
              · exact absurd hch'.1 h
              · exact absurd hch'.2 h
            · exact ⟨hf, md', hmd, hne⟩
        · intro f
          simp only [List.mem_cons, ihu f]
          constructor
          · rintro (rfl | ⟨hf, md', hmd, heq⟩)
            · exact ⟨Or.inl rfl, md, hl, hch'.1, hch'.2⟩
            · exact ⟨Or.inr hf, md', hmd, heq⟩
          · rintro ⟨rfl | hf, md', hmd, heq⟩
            · exact Or.inl rfl
            · exact Or.inr ⟨hf, md', hmd, heq⟩
        · simp only [List.length_cons]
          omega

/-- C8: `getFilesToProcess` partitions the current markdown source files
into new/changed/unchanged: a file with no stored metadata is new; a file
with stored metadata is changed iff its current content hash differs from
the stored hash or its modification timestamp differs from the stored one
(either difference alone suffices); otherwise it is unchanged.  The three
lists together are exactly the classified files. -/
theorem getFilesToProcess_classification (files : List SourceFile)
    (existing : List (String × FileMetadata)) :
    (∀ f, f ∈ (getFilesToProcess files existing).1 ↔
      f ∈ files.filter (fun g => List.isSuffixOf ".md".toList g.name.toList) ∧
        existing.lookup f.name = none) ∧
    (∀ f, f ∈ (getFilesToProcess files existing).2.1 ↔
      f ∈ files.filter (fun g => List.isSuffixOf ".md".toList g.name.toList) ∧
        ∃ md, existing.lookup f.name = some md ∧
          (f.hash ≠ md.fileHash ∨ f.mtime ≠ md.lastModified)) ∧
    (∀ f, f ∈ (getFilesToProcess files existing).2.2 ↔
      f ∈ files.filter (fun g => List.isSuffixOf ".md".toList g.name.toList) ∧
        ∃ md, existing.lookup f.name = some md ∧
          f.hash = md.fileHash ∧ f.mtime = md.lastModified) ∧
    (getFilesToProcess files existing).1.length
      + (getFilesToProcess files existing).2.1.length
      + (getFilesToProcess files existing).2.2.length
      = (files.filter (fun g => List.isSuffixOf ".md".toList g.name.toList)).length :=
  classifyFiles_spec existing _

end RAG

